import Mathlib

/-!
Shallow embedding of the chunked transcription pipeline from
scripts/transcription.ts: silence-detector output parsing, split planning
near fixed-size targets, chunk extraction, per-chunk word normalization
(offset correction, diarized-segment subdivision), parallel dispatch with
per-chunk error isolation, and the index-ordered merge.

Modelling conventions:
- Times are rationals; the source uses floating-point seconds.  The
  source stores each word time both as a formatted string ("252.000s")
  and an MM:SS rendering of the same number; we model the underlying
  numeric value once.
- Strings are Lean Strings; the character-level helpers below model the
  JavaScript operations (trim, split on runs of whitespace, replace of
  the first occurrence) used by the source.
- External processes (ffmpeg/ffprobe invocations, the transcription API
  call) are opaque: their outputs are the inputs of the functions here,
  and a fallible call is an Except value.  Temporary file paths are
  plumbing and are omitted from the chunk record.
-/

/-- One silence interval reported by the silence detector.
Source fields: start, end (end is a Lean keyword, renamed stop). -/
structure Silence where
  start : ℚ
  stop : ℚ

/-- One extracted audio chunk.  The source record also carries the
temporary file path, which is plumbing and not modelled. -/
structure ChunkInfo where
  startOffset : ℚ
  duration : ℚ

/-- One diarized segment of a transcription response.
Source fields: speaker, text, start, end (renamed stop). -/
structure DiarizedSegment where
  speaker : String
  text : String
  start : ℚ
  stop : ℚ

/-- One word of a word-timestamp transcription response.
Source fields: word, start, end (renamed stop). -/
structure RawWord where
  word : String
  start : ℚ
  stop : ℚ

/-- The shape of a transcription call response: optional word list and
optional diarized segment list (source interface VerboseResponse). -/
structure VerboseResponse where
  text : String
  words : Option (List RawWord)
  segments : Option (List DiarizedSegment)

/-- One merged output word.  The source stores startOffset/endOffset as
formatted second strings and startTime/endTime as MM:SS strings; both
render the same numbers, modelled here once as rationals. -/
structure TranscriptionWord where
  word : String
  startOffset : ℚ
  endOffset : ℚ
  speakerLabel : String

/-- The value produced for chunk i by one parallel transcription branch
(source: the object literal with index, words and the chunk handle; the
chunk handle is only used for temp-file cleanup and is not modelled). -/
structure ChunkOutcome where
  index : ℕ
  words : List TranscriptionWord

/- ============ Silence Detector (detectSilences) ============ -/

/-- One line of the ffmpeg silencedetect log, abstracted: a line matching
the silence_start regex, a line matching the silence_end regex, or any
other line. -/
inductive SilenceEvent where
  | start (t : ℚ)
  | stop (t : ℚ)
  | other

/-- The line loop of detectSilences: currentStart holds the time of the
last unmatched silence_start marker. -/
def silenceScan : Option ℚ → List SilenceEvent → List Silence
  | _, [] => []
  | _, .start t :: rest => silenceScan (some t) rest
  | some s, .stop t :: rest => ⟨s, t⟩ :: silenceScan none rest
  | none, .stop _ :: rest => silenceScan none rest
  | cur, .other :: rest => silenceScan cur rest

/-- detectSilences, modelled on the abstracted event stream: pairs each
silence_start with the next silence_end; an end with no pending start is
ignored, and a pending start left at end-of-stream is dropped. -/
def detectSilences (lines : List SilenceEvent) : List Silence :=
  silenceScan none lines

/- ============ Split Planner (findSplitPoints) ============ -/

/-- The inner silence scan of findSplitPoints for one window size:
keeps the silence whose start is in [target - w, target + w] with the
smallest absolute distance to target (strict comparison, so the first
listed silence wins ties), starting from the accumulated best. -/
def bestLoop (target w : ℚ) : Option Silence → List Silence → Option Silence
  | best, [] => best
  | best, s :: rest =>
    if target - w ≤ s.start ∧ s.start ≤ target + w then
      match best with
      | none => bestLoop target w (some s) rest
      | some b =>
        if |s.start - target| < |b.start - target| then
          bestLoop target w (some s) rest
        else
          bestLoop target w (some b) rest
    else
      bestLoop target w best rest

/-- The window sizes tried by findSplitPoints: plus/minus 30s expanding
by 30s up to plus/minus 180s. -/
def windowSizes : List ℚ := [30, 60, 90, 120, 150, 180]

/-- The window-expansion loop of findSplitPoints: try each window size
in order and stop at the first one whose scan found a silence. -/
def searchWindows (silences : List Silence) (target : ℚ) : List ℚ → Option Silence
  | [] => none
  | w :: ws =>
    match bestLoop target w none silences with
    | some b => some b
    | none => searchWindows silences target ws

/-- The offset chosen for one checkpoint: the best silence start found by
the expanding-window search, or the raw checkpoint if none was found. -/
def pickOffset (silences : List Silence) (target : ℚ) : ℚ :=
  match searchWindows silences target windowSizes with
  | some bestSilence => bestSilence.start
  | none => target

/-- Number of iterations of the checkpoint loop
(for target = chunkSec; target < totalDuration; target += chunkSec):
the number of positive multiples of chunkSec below totalDuration.  The
source loop diverges for non-positive chunkSec; only positive values
occur, and the model returns no checkpoints in that case. -/
def numTargets (totalDuration chunkSec : ℚ) : ℕ :=
  if 0 < chunkSec then (⌈totalDuration / chunkSec⌉ - 1).toNat else 0

/-- The checkpoints chunkSec, 2 * chunkSec, ... below totalDuration. -/
def splitTargets (totalDuration chunkSec : ℚ) : List ℚ :=
  (List.range (numTargets totalDuration chunkSec)).map
    (fun i : ℕ => ((i : ℚ) + 1) * chunkSec)

/-- findSplitPoints: 0 followed by one chosen offset per checkpoint. -/
def findSplitPoints (silences : List Silence) (totalDuration chunkSec : ℚ) :
    List ℚ :=
  0 :: (splitTargets totalDuration chunkSec).map (pickOffset silences)

/-- The silences whose start lies in [target - w, target + w]; the
candidate set scanned by one window iteration of findSplitPoints. -/
def windowCandidates (silences : List Silence) (target w : ℚ) : List Silence :=
  silences.filter (fun s => decide (target - w ≤ s.start ∧ s.start ≤ target + w))

/- ============ Chunk Extractor (splitAudio) ============ -/

/-- splitAudio: one chunk per split point, from that split point to the
next one, the last chunk ending at totalDuration
(end = splitPoints[i + 1] ?? totalDuration). -/
def splitAudio : List ℚ → ℚ → List ChunkInfo
  | [], _ => []
  | [start], totalDuration => [⟨start, totalDuration - start⟩]
  | start :: next :: rest, totalDuration =>
    ⟨start, next - start⟩ :: splitAudio (next :: rest) totalDuration

/- ============ Word extraction (extractWords) ============ -/

/-- JavaScript String.prototype.trim on the character list. -/
def trimChars (l : List Char) : List Char :=
  ((l.dropWhile Char.isWhitespace).reverse.dropWhile Char.isWhitespace).reverse

/-- Maximal runs of non-whitespace characters; cur accumulates the
current run in reverse. -/
def wsTokensAux : List Char → List Char → List (List Char)
  | cur, [] => if cur = [] then [] else [cur.reverse]
  | cur, c :: rest =>
    if c.isWhitespace then
      if cur = [] then wsTokensAux [] rest
      else cur.reverse :: wsTokensAux [] rest
    else
      wsTokensAux (c :: cur) rest

/-- JavaScript text.trim().split(whitespace-run regex): the maximal
non-whitespace runs of the trimmed string; for an empty trimmed string
JavaScript split yields one empty-string token. -/
def jsTrimSplitWS (s : String) : List String :=
  let t := trimChars s.data
  if t = [] then [""] else (wsTokensAux [] t).map String.mk

/-- Remove the first occurrence of pat from a character list; the list is
unchanged when pat does not occur. -/
def removeFirstOcc (pat : List Char) : List Char → List Char
  | [] => []
  | c :: rest =>
    if pat.isPrefixOf (c :: rest) then (c :: rest).drop pat.length
    else c :: removeFirstOcc pat rest

/-- JavaScript s.replace(pat, "") with a string pattern: removes the
first occurrence of pat only. -/
def jsReplaceFirst (s pat : String) : String :=
  String.mk (removeFirstOcc pat.data s.data)

/-- The per-segment inner loop of extractWords in diarized mode: skip a
segment with no tokens or an empty first token, otherwise give each of
the k tokens a uniform slice of the segment duration and the segment
speaker with the first "speaker_" occurrence removed. -/
def extractSegmentWords (offsetSec : ℚ) (segment : DiarizedSegment) :
    List TranscriptionWord :=
  let segmentWords := jsTrimSplitWS segment.text
  match segmentWords with
  | [] => []
  | w0 :: _ =>
    if w0 = "" then []
    else
      let duration := segment.stop - segment.start
      let wordDuration := duration / (segmentWords.length : ℚ)
      segmentWords.enum.map (fun p =>
        { word := p.2
          startOffset := segment.start + (p.1 : ℚ) * wordDuration + offsetSec
          endOffset := segment.start + ((p.1 : ℚ) + 1) * wordDuration + offsetSec
          speakerLabel := jsReplaceFirst segment.speaker "speaker_" })

/-- extractWords: word-timestamp mode shifts each word by offsetSec and
labels it "0"; otherwise diarized mode subdivides each segment; a
response with neither field yields no words.  The source tests
result.words for truthiness, so a present-but-empty word array still
selects word mode. -/
def extractWords (result : VerboseResponse) (offsetSec : ℚ) :
    List TranscriptionWord :=
  match result.words with
  | some ws =>
    ws.map (fun w =>
      { word := w.word
        startOffset := w.start + offsetSec
        endOffset := w.stop + offsetSec
        speakerLabel := "0" })
  | none =>
    match result.segments with
    | some segments => segments.flatMap (extractSegmentWords offsetSec)
    | none => []

/- ============ Dispatch and merge (main) ============ -/

/-- The body of one parallel transcription branch after the call has
settled: a successful call contributes the chunk's extracted words with
the chunk start offset applied; a failed call is caught and contributes
an empty word list.  The original index i is attached either way. -/
def transcriptionOutcome (i : ℕ) (chunk : ChunkInfo)
    (result : Except String VerboseResponse) : ChunkOutcome :=
  match result with
  | .ok r => ⟨i, extractWords r chunk.startOffset⟩
  | .error _ => ⟨i, []⟩

/-- The dispatch stage: one outcome per chunk, indexed by submission
order (chunks.map((chunk, i) => ...) with the per-chunk try/catch). -/
def dispatchChunks (inputs : List (ChunkInfo × Except String VerboseResponse)) :
    List ChunkOutcome :=
  inputs.enum.map (fun p => transcriptionOutcome p.1 p.2.1 p.2.2)

/-- results.sort((a, b) => a.index - b.index): a stable comparison sort
by original chunk index. -/
def sortByIndex (results : List ChunkOutcome) : List ChunkOutcome :=
  List.insertionSort (fun a b => a.index ≤ b.index) results

/-- The merge loop of main: sort the settled outcomes by original chunk
index and concatenate their word lists. -/
def mergeWords (results : List ChunkOutcome) : List TranscriptionWord :=
  (sortByIndex results).flatMap (fun r => r.words)

/- ============ C9: silence event pairing ============ -/

lemma silenceScan_append_start (t : ℚ) :
    ∀ (evs : List SilenceEvent) (cur : Option ℚ),
      silenceScan cur (evs ++ [.start t]) = silenceScan cur evs := by
  intro evs
  induction evs with
  | nil => intro cur; cases cur <;> rfl
  | cons e rest ih =>
    intro cur
    cases e with
    | start s => simpa [silenceScan] using ih (some s)
    | stop s =>
      cases cur with
      | none => simpa [silenceScan] using ih none
      | some c => simpa [silenceScan] using ih none
    | other => simpa [silenceScan] using ih cur

/-- C9: the silence parser emits one interval per matched
silence_start/silence_end pair, and a trailing silence_start with no
matching silence_end contributes no interval: appending it to any event
stream leaves the parsed output unchanged. -/
theorem detectSilences_pairing :
    (∀ pairs : List (ℚ × ℚ),
      detectSilences (pairs.flatMap (fun p => [.start p.1, .stop p.2])) =
        pairs.map (fun p => ⟨p.1, p.2⟩))
    ∧ (∀ (evs : List SilenceEvent) (t : ℚ),
        detectSilences (evs ++ [.start t]) = detectSilences evs) := by
  constructor
  · intro pairs
    induction pairs with
    | nil => rfl
    | cons p rest ih =>
      simpa [detectSilences, List.flatMap_cons, silenceScan] using ih
  · intro evs t
    exact silenceScan_append_start t evs none

/- ============ C4 and C7: splitAudio ============ -/

/-- C4 counterexample: the split plan [0, 100, 250] has 3 offsets, and
splitAudio produces 3 chunks from it, not 3 - 1 = 2. -/
theorem splitAudio_count_cex :
    ¬ ((splitAudio [0, 100, 250] 300).length =
        ([0, 100, 250] : List ℚ).length - 1) := by
  simp [splitAudio]

/-- C4 (amended): for every split plan the extractor produces exactly one
chunk per offset, i.e. a plan of length n + 1 produces n + 1 chunks (the
final chunk running from the last offset to totalDuration). -/
theorem splitAudio_length (splitPoints : List ℚ) (totalDuration : ℚ) :
    (splitAudio splitPoints totalDuration).length = splitPoints.length := by
  induction splitPoints with
  | nil => rfl
  | cons a rest ih =>
    cases rest with
    | nil => rfl
    | cons b r => simpa [splitAudio] using ih

/-- C7: for offsets [o0, ..., on] the chunks cover exactly
[o0, o1), [o1, o2), ..., [on, totalDuration): each chunk's time range
runs from its offset to the next offset, with the final chunk ending at
totalDuration; in particular offsets [0, 100, 250] with totalDuration
300 give exactly 3 chunks covering [0, 100), [100, 250), [250, 300). -/
theorem splitAudio_coverage (splitPoints : List ℚ) (totalDuration : ℚ) :
    (splitAudio splitPoints totalDuration).map
        (fun c => (c.startOffset, c.startOffset + c.duration)) =
      splitPoints.zip (splitPoints.tail ++ [totalDuration])
    ∧ (splitAudio [0, 100, 250] 300).length = 3
    ∧ (splitAudio [0, 100, 250] 300).map
        (fun c => (c.startOffset, c.startOffset + c.duration)) =
      [(0, 100), (100, 250), (250, 300)] := by
  refine ⟨?_, by simp [splitAudio], by norm_num [splitAudio]⟩
  induction splitPoints with
  | nil => rfl
  | cons a rest ih =>
    cases rest with
    | nil => simp [splitAudio]
    | cons b r =>
      simpa [splitAudio] using ih

/- ============ C2: offset correction ============ -/

lemma extractSegmentWords_shift (offsetSec : ℚ) (segment : DiarizedSegment) :
    extractSegmentWords offsetSec segment =
      (extractSegmentWords 0 segment).map (fun w =>
        { w with
          startOffset := w.startOffset + offsetSec
          endOffset := w.endOffset + offsetSec }) := by
  cases htoks : jsTrimSplitWS segment.text with
  | nil => simp [extractSegmentWords, htoks]
  | cons w0 rest =>
    by_cases h0 : w0 = ""
    · simp [extractSegmentWords, htoks, h0]
    · simp only [extractSegmentWords, htoks, if_neg h0, List.map_map]
      refine List.map_congr_left ?_
      intro p hp
      simp only [Function.comp_apply, TranscriptionWord.mk.injEq]
      refine ⟨trivial, by ring, by ring, trivial⟩

/-- C2: for every transcription response, extracting words with a chunk
start offset gives exactly the chunk-relative words (offset 0) with the
offset added to every start and end time; in particular a chunk with
startOffset 250 and a word at [2.0s, 2.5s] yields a merged word at
[252.0s, 252.5s]. -/
theorem extractWords_offset_shift (result : VerboseResponse) (offsetSec : ℚ) :
    extractWords result offsetSec =
      (extractWords result 0).map (fun w =>
        { w with
          startOffset := w.startOffset + offsetSec
          endOffset := w.endOffset + offsetSec })
    ∧ extractWords ⟨"", some [⟨"word", 2, 5/2⟩], none⟩ 250 =
        [⟨"word", 252, 505/2, "0"⟩] := by
  constructor
  · cases hw : result.words with
    | some ws =>
      simp only [extractWords, hw, List.map_map]
      refine List.map_congr_left ?_
      intro w hw2
      simp only [Function.comp_apply, TranscriptionWord.mk.injEq]
      refine ⟨trivial, by ring, by ring, trivial⟩
    | none =>
      cases hs : result.segments with
      | some segs =>
        simp only [extractWords, hw, hs, List.map_flatMap]
        exact congrArg segs.flatMap
          (funext fun s => extractSegmentWords_shift offsetSec s)
      | none => simp [extractWords, hw, hs]
  · norm_num [extractWords]

/- ============ C8: diarized segment subdivision ============ -/

lemma dropWhile_head_false (p : Char → Bool) :
    ∀ (l : List Char) (c : Char) (r : List Char),
      l.dropWhile p = c :: r → p c = false := by
  intro l
  induction l with
  | nil => intro c r h; simp at h
  | cons a l2 ih =>
    intro c r h
    by_cases hp : p a
    · rw [List.dropWhile_cons_of_pos hp] at h
      exact ih c r h
    · rw [List.dropWhile_cons_of_neg hp] at h
      cases h
      simpa using hp

lemma mem_dropWhile_of_neg (p : Char → Bool) :
    ∀ (l : List Char) (x : Char), x ∈ l → p x = false → x ∈ l.dropWhile p := by
  intro l
  induction l with
  | nil => intro x hx; cases hx
  | cons a l2 ih =>
    intro x hx hpx
    by_cases hp : p a
    · rw [List.dropWhile_cons_of_pos hp]
      rcases List.mem_cons.mp hx with rfl | hx2
      · rw [hp] at hpx; cases hpx
      · exact ih x hx2 hpx
    · rw [List.dropWhile_cons_of_neg hp]
      exact hx

lemma exists_nonws_of_trimChars_ne_nil (l : List Char)
    (h : trimChars l ≠ []) :
    ∃ c ∈ trimChars l, c.isWhitespace = false := by
  cases hdc : l.dropWhile Char.isWhitespace with
  | nil => exact absurd (by simp [trimChars, hdc]) h
  | cons c r =>
    have hpc : c.isWhitespace = false := dropWhile_head_false _ l c r hdc
    refine ⟨c, ?_, hpc⟩
    have h1 : c ∈ (l.dropWhile Char.isWhitespace).reverse :=
      List.mem_reverse.mpr (by rw [hdc]; exact List.mem_cons_self c r)
    have h2 : c ∈ (l.dropWhile Char.isWhitespace).reverse.dropWhile
        Char.isWhitespace :=
      mem_dropWhile_of_neg _ _ c h1 hpc
    exact List.mem_reverse.mpr h2

lemma wsTokensAux_ne_nil_of_cur :
    ∀ (t cur : List Char), cur ≠ [] → wsTokensAux cur t ≠ [] := by
  intro t
  induction t with
  | nil => intro cur h; simp [wsTokensAux, h]
  | cons c rest ih =>
    intro cur h
    by_cases hws : c.isWhitespace
    · simp [wsTokensAux, hws, h]
    · simp only [wsTokensAux, if_neg hws]
      exact ih (c :: cur) (by simp)

lemma wsTokensAux_ne_nil_of_exists :
    ∀ t : List Char, (∃ c ∈ t, c.isWhitespace = false) →
      wsTokensAux [] t ≠ [] := by
  intro t
  induction t with
  | nil => rintro ⟨c, hc, -⟩; cases hc
  | cons c rest ih =>
    rintro ⟨x, hx, hpx⟩
    by_cases hws : c.isWhitespace
    · have hxr : x ∈ rest := by
        rcases List.mem_cons.mp hx with rfl | hx2
        · rw [hws] at hpx; cases hpx
        · exact hx2
      simpa [wsTokensAux, hws] using ih ⟨x, hxr, hpx⟩
    · simp only [wsTokensAux, if_neg hws]
      exact wsTokensAux_ne_nil_of_cur rest [c] (by simp)

lemma wsTokensAux_mem_ne_nil :
    ∀ (t cur l : List Char), l ∈ wsTokensAux cur t → l ≠ [] := by
  intro t
  induction t with
  | nil =>
    intro cur l hl
    by_cases h : cur = []
    · simp [wsTokensAux, h] at hl
    · simp [wsTokensAux, h] at hl
      subst hl
      simpa using h
  | cons c rest ih =>
    intro cur l hl
    by_cases hws : c.isWhitespace
    · by_cases h : cur = []
      · rw [show wsTokensAux cur (c :: rest) = wsTokensAux [] rest by
          simp [wsTokensAux, hws, h]] at hl
        exact ih [] l hl
      · rw [show wsTokensAux cur (c :: rest) =
            cur.reverse :: wsTokensAux [] rest by
          simp [wsTokensAux, hws, h]] at hl
        rcases List.mem_cons.mp hl with rfl | hl2
        · simpa using h
        · exact ih [] l hl2
    · rw [show wsTokensAux cur (c :: rest) = wsTokensAux (c :: cur) rest by
        simp [wsTokensAux, hws]] at hl
      exact ih (c :: cur) l hl

lemma jsTrimSplitWS_of_trim_ne_nil (s : String)
    (h : trimChars s.data ≠ []) :
    jsTrimSplitWS s ≠ [] ∧ ∀ tok ∈ jsTrimSplitWS s, tok ≠ "" := by
  constructor
  · simp only [jsTrimSplitWS, if_neg h, ne_eq, List.map_eq_nil_iff]
    exact wsTokensAux_ne_nil_of_exists _ (exists_nonws_of_trimChars_ne_nil _ h)
  · intro tok htok
    rw [show jsTrimSplitWS s = (wsTokensAux [] (trimChars s.data)).map String.mk
      from by simp [jsTrimSplitWS, if_neg h]] at htok
    rcases List.mem_map.mp htok with ⟨lc, hlc, rfl⟩
    have hne := wsTokensAux_mem_ne_nil _ _ _ hlc
    intro he
    exact hne (by simpa using congrArg String.data he)

/-- C8: diarized-segment normalization: a segment whose text is empty or
whitespace-only (empty after trimming) produces no words at all;
otherwise the trimmed text splits on whitespace into k >= 1 tokens and
exactly k words are produced, token i spanning
[start + i * slice, start + (i + 1) * slice) for the uniform slice
(end - start) / k, shifted by the chunk offset. -/
theorem extractSegmentWords_subdivision (segment : DiarizedSegment)
    (offsetSec : ℚ) :
    (trimChars segment.text.data = [] →
      extractSegmentWords offsetSec segment = [])
    ∧ (trimChars segment.text.data ≠ [] →
        (extractSegmentWords offsetSec segment).length =
          (jsTrimSplitWS segment.text).length
        ∧ ∀ (i : ℕ) (h1 : i < (extractSegmentWords offsetSec segment).length)
            (h2 : i < (jsTrimSplitWS segment.text).length),
            (extractSegmentWords offsetSec segment).get ⟨i, h1⟩ =
              { word := (jsTrimSplitWS segment.text).get ⟨i, h2⟩
                startOffset := segment.start + (i : ℚ) *
                  ((segment.stop - segment.start) /
                    ((jsTrimSplitWS segment.text).length : ℚ)) + offsetSec
                endOffset := segment.start + ((i : ℚ) + 1) *
                  ((segment.stop - segment.start) /
                    ((jsTrimSplitWS segment.text).length : ℚ)) + offsetSec
                speakerLabel := jsReplaceFirst segment.speaker "speaker_" }) := by
  constructor
  · intro h
    have htoks : jsTrimSplitWS segment.text = [""] := by
      simp [jsTrimSplitWS, h]
    simp [extractSegmentWords, htoks]
  · intro h
    obtain ⟨hne, hmem⟩ := jsTrimSplitWS_of_trim_ne_nil segment.text h
    cases htoks : jsTrimSplitWS segment.text with
    | nil => exact absurd htoks hne
    | cons w0 rest =>
      have hw0 : w0 ≠ "" := hmem w0 (htoks ▸ List.mem_cons_self w0 rest)
      have hval : extractSegmentWords offsetSec segment =
          (w0 :: rest).enum.map (fun p =>
            { word := p.2
              startOffset := segment.start + (p.1 : ℚ) *
                ((segment.stop - segment.start) /
                  (((w0 :: rest).length : ℕ) : ℚ)) + offsetSec
              endOffset := segment.start + ((p.1 : ℚ) + 1) *
                ((segment.stop - segment.start) /
                  (((w0 :: rest).length : ℕ) : ℚ)) + offsetSec
              speakerLabel := jsReplaceFirst segment.speaker "speaker_" }) := by
        simp [extractSegmentWords, htoks, hw0]
      constructor
      · rw [hval]
        simp [List.enum_length]
      · intro i h1 h2
        rw [List.get_eq_getElem]
        have h1e : i < ((w0 :: rest).enum.map (fun p =>
            ({ word := p.2
               startOffset := segment.start + (p.1 : ℚ) *
                 ((segment.stop - segment.start) /
                   (((w0 :: rest).length : ℕ) : ℚ)) + offsetSec
               endOffset := segment.start + ((p.1 : ℚ) + 1) *
                 ((segment.stop - segment.start) /
                   (((w0 :: rest).length : ℕ) : ℚ)) + offsetSec
               speakerLabel := jsReplaceFirst segment.speaker
                 "speaker_" } : TranscriptionWord))).length := by
          rw [← hval]; exact h1
        rw [List.getElem_of_eq hval h1]
        rw [List.getElem_map]
        rw [List.getElem_enum]
        simp [List.get_eq_getElem]

theorem extractSegmentWords_subdivision_witness :
    trimChars ("a b c" : String).data ≠ []
    ∧ (extractSegmentWords 0 ⟨"speaker_0", "a b c", 0, 3⟩).length = 3
    ∧ (extractSegmentWords 0 ⟨"speaker_0", "a b c", 0, 3⟩).get
        ⟨1, by
          rw [((extractSegmentWords_subdivision ⟨"speaker_0", "a b c", 0, 3⟩
            0).2 (by decide)).1]
          decide⟩ = ⟨"b", 1, 2, "0"⟩ := by
  have hmain := (extractSegmentWords_subdivision
    (⟨"speaker_0", "a b c", 0, 3⟩ : DiarizedSegment) 0).2 (by decide)
  have ht : jsTrimSplitWS "a b c" = ["a", "b", "c"] := by decide
  refine ⟨by decide, ?_, ?_⟩
  · rw [hmain.1]; decide
  · rw [hmain.2 1 _ (by decide)]
    simp only [TranscriptionWord.mk.injEq]
    refine ⟨?_, ?_, ?_, ?_⟩
    · simp [List.get_eq_getElem, ht]
    · norm_num [ht]
    · norm_num [ht]
    · decide

/- ============ C10: speaker labels ============ -/

lemma extractSegmentWords_label (offsetSec : ℚ) (seg : DiarizedSegment) :
    ∀ w ∈ extractSegmentWords offsetSec seg,
      w.speakerLabel = jsReplaceFirst seg.speaker "speaker_" := by
  intro w hw
  cases htoks : jsTrimSplitWS seg.text with
  | nil => simp [extractSegmentWords, htoks] at hw
  | cons w0 rest =>
    by_cases h0 : w0 = ""
    · simp [extractSegmentWords, htoks, h0] at hw
    · simp only [extractSegmentWords, htoks, if_neg h0, List.mem_map] at hw
      rcases hw with ⟨p, hp, rfl⟩
      rfl

/-- C10: in diarized mode every produced word's speakerLabel is the
segment's speaker string with the first occurrence of "speaker_"
removed, so "speaker_1" becomes "1" (not passed through verbatim),
while in word-timestamp mode every word gets the fixed label "0". -/
theorem extractWords_speakerLabel (result : VerboseResponse) (offsetSec : ℚ) :
    (∀ ws, result.words = some ws →
      ∀ w ∈ extractWords result offsetSec, w.speakerLabel = "0")
    ∧ (∀ segs, result.words = none → result.segments = some segs →
        ∀ w ∈ extractWords result offsetSec,
          ∃ seg ∈ segs, w.speakerLabel = jsReplaceFirst seg.speaker "speaker_")
    ∧ jsReplaceFirst "speaker_1" "speaker_" = "1"
    ∧ jsReplaceFirst "speaker_1" "speaker_" ≠ "speaker_1" := by
  refine ⟨?_, ?_, by decide, by decide⟩
  · intro ws hws w hw
    simp only [extractWords, hws, List.mem_map] at hw
    rcases hw with ⟨r, hr, rfl⟩
    rfl
  · intro segs hws hsegs w hw
    simp only [extractWords, hws, hsegs, List.mem_flatMap] at hw
    rcases hw with ⟨seg, hseg, hwseg⟩
    exact ⟨seg, hseg, extractSegmentWords_label offsetSec seg w hwseg⟩

theorem extractWords_speakerLabel_witness :
    ∃ seg ∈ [(⟨"speaker_1", "hi", 0, 1⟩ : DiarizedSegment)],
      (⟨"hi", 0, 1, "1"⟩ : TranscriptionWord).speakerLabel =
        jsReplaceFirst seg.speaker "speaker_" := by
  have hval : extractWords ⟨"", none, some [⟨"speaker_1", "hi", 0, 1⟩]⟩ 0 =
      [⟨"hi", 0, 1, "1"⟩] := by
    have ht : jsTrimSplitWS "hi" = ["hi"] := by decide
    have hlbl : jsReplaceFirst "speaker_1" "speaker_" = "1" := by decide
    simp only [extractWords, extractSegmentWords, ht, List.flatMap_cons,
      List.flatMap_nil, List.append_nil]
    rw [if_neg (by decide : ¬("hi" : String) = "")]
    norm_num [hlbl]
  exact (extractWords_speakerLabel ⟨"", none, some [⟨"speaker_1", "hi", 0, 1⟩]⟩
    0).2.1 [⟨"speaker_1", "hi", 0, 1⟩] rfl rfl ⟨"hi", 0, 1, "1"⟩
    (by rw [hval]; exact List.mem_cons_self _ _)

/- ============ C1 and C3: dispatch and index-ordered merge ============ -/

instance : IsTotal ChunkOutcome (fun a b => a.index ≤ b.index) :=
  ⟨fun a b => Nat.le_total a.index b.index⟩

instance : IsTrans ChunkOutcome (fun a b => a.index ≤ b.index) :=
  ⟨fun _ _ _ h1 h2 => Nat.le_trans h1 h2⟩

instance : IsAntisymm ChunkOutcome (fun a b => a.index < b.index) :=
  ⟨fun _ _ h1 h2 => absurd (Nat.lt_trans h1 h2) (Nat.lt_irrefl _)⟩

lemma sortByIndex_eq_of_sorted {rs os : List ChunkOutcome}
    (hperm : rs.Perm os)
    (hsorted : os.Pairwise (fun a b => a.index < b.index)) :
    sortByIndex rs = os := by
  have h1 : (sortByIndex rs).Perm os :=
    (List.perm_insertionSort _ rs).trans hperm
  have h2 : List.Pairwise (fun a b : ChunkOutcome => a.index ≤ b.index)
      (sortByIndex rs) := List.sorted_insertionSort _ rs
  have hne : (sortByIndex rs).Pairwise
      (fun a b : ChunkOutcome => a.index ≠ b.index) :=
    (List.Perm.pairwise_iff (fun h => h.symm) h1).mpr
      (hsorted.imp (fun h => Nat.ne_of_lt h))
  have hlt : (sortByIndex rs).Pairwise
      (fun a b : ChunkOutcome => a.index < b.index) :=
    (h2.and hne).imp (fun h => Nat.lt_of_le_of_ne h.1 h.2)
  exact List.eq_of_perm_of_sorted h1 hlt hsorted

/-- C1: for every list of settled chunk outcomes, regardless of the
order in which the parallel calls completed (any permutation of the
outcomes listed in ascending original chunk index order), the merged
word list equals the concatenation of the per-chunk word lists in
ascending index order, each chunk's words kept verbatim in the order the
transcription call returned them (never re-sorted by timestamp). -/
theorem mergeWords_index_order (os rs : List ChunkOutcome)
    (hperm : rs.Perm os)
    (hsorted : os.Pairwise (fun a b => a.index < b.index)) :
    mergeWords rs = os.flatMap (fun r => r.words) := by
  unfold mergeWords
  rw [sortByIndex_eq_of_sorted hperm hsorted]

theorem mergeWords_index_order_witness :
    mergeWords
        [⟨2, [⟨"c", 20, 21, "0"⟩]⟩, ⟨0, [⟨"a", 0, 1, "0"⟩]⟩,
         ⟨1, [⟨"b", 10, 11, "0"⟩]⟩] =
      [⟨"a", 0, 1, "0"⟩, ⟨"b", 10, 11, "0"⟩, ⟨"c", 20, 21, "0"⟩] := by
  have hperm := @List.perm_append_comm ChunkOutcome
    [⟨2, [⟨"c", 20, 21, "0"⟩]⟩]
    [⟨0, [⟨"a", 0, 1, "0"⟩]⟩, ⟨1, [⟨"b", 10, 11, "0"⟩]⟩]
  have h := mergeWords_index_order
    [⟨0, [⟨"a", 0, 1, "0"⟩]⟩, ⟨1, [⟨"b", 10, 11, "0"⟩]⟩,
     ⟨2, [⟨"c", 20, 21, "0"⟩]⟩]
    [⟨2, [⟨"c", 20, 21, "0"⟩]⟩, ⟨0, [⟨"a", 0, 1, "0"⟩]⟩,
     ⟨1, [⟨"b", 10, 11, "0"⟩]⟩]
    hperm (by decide)
  simpa using h

lemma transcriptionOutcome_index (i : ℕ) (c : ChunkInfo)
    (r : Except String VerboseResponse) :
    (transcriptionOutcome i c r).index = i := by
  cases r <;> rfl

lemma dispatch_enumFrom_flatMap
    (inputs : List (ChunkInfo × Except String VerboseResponse)) :
    ∀ n, ((List.enumFrom n inputs).map
        (fun p => transcriptionOutcome p.1 p.2.1 p.2.2)).flatMap
          (fun r => r.words)
      = inputs.flatMap (fun p => match p.2 with
          | .ok v => extractWords v p.1.startOffset
          | .error _ => []) := by
  induction inputs with
  | nil => intro n; rfl
  | cons head tail ih =>
    intro n
    rcases head with ⟨c, r⟩
    cases r with
    | ok v =>
      simp only [List.enumFrom_cons, List.map_cons, List.flatMap_cons, ih]
      rfl
    | error e =>
      simp only [List.enumFrom_cons, List.map_cons, List.flatMap_cons, ih]
      rfl

lemma dispatchChunks_map_index
    (inputs : List (ChunkInfo × Except String VerboseResponse)) :
    (dispatchChunks inputs).map (fun r => r.index) =
      List.range inputs.length := by
  unfold dispatchChunks
  rw [List.map_map]
  rw [show ((fun r : ChunkOutcome => r.index) ∘
      (fun p : ℕ × (ChunkInfo × Except String VerboseResponse) =>
        transcriptionOutcome p.1 p.2.1 p.2.2)) =
      (fun p : ℕ × (ChunkInfo × Except String VerboseResponse) => p.1) from
    funext fun p => transcriptionOutcome_index p.1 p.2.1 p.2.2]
  exact List.enum_map_fst inputs

lemma dispatchChunks_sorted
    (inputs : List (ChunkInfo × Except String VerboseResponse)) :
    (dispatchChunks inputs).Pairwise (fun a b => a.index < b.index) := by
  have h : ((dispatchChunks inputs).map (fun r => r.index)).Pairwise
      (· < ·) := by
    rw [dispatchChunks_map_index inputs]
    exact List.pairwise_lt_range _
  exact List.pairwise_map.mp h

/-- C3: per-chunk error isolation: dispatch settles every chunk (its
model is a total function, so no failure escapes the stage), every
outcome carries its chunk's original submission index, a failed chunk
contributes an outcome with an empty word list (no placeholder words),
and the merged result is exactly the concatenation, in submission index
order, of the per-chunk word lists, with failed chunks contributing
nothing. -/
theorem dispatchChunks_error_isolation
    (inputs : List (ChunkInfo × Except String VerboseResponse)) :
    ((dispatchChunks inputs).map (fun r => r.index) =
      List.range inputs.length)
    ∧ (∀ i chunk msg, (i, (chunk, Except.error msg)) ∈ inputs.enum →
        (⟨i, []⟩ : ChunkOutcome) ∈ dispatchChunks inputs)
    ∧ mergeWords (dispatchChunks inputs) =
        inputs.flatMap (fun p => match p.2 with
          | .ok v => extractWords v p.1.startOffset
          | .error _ => []) := by
  refine ⟨dispatchChunks_map_index inputs, ?_, ?_⟩
  · intro i chunk msg hmem
    exact List.mem_map.mpr ⟨(i, (chunk, .error msg)), hmem, rfl⟩
  · unfold mergeWords
    rw [sortByIndex_eq_of_sorted (List.Perm.refl _)
      (dispatchChunks_sorted inputs)]
    exact dispatch_enumFrom_flatMap inputs 0

theorem dispatchChunks_error_isolation_witness :
    (⟨1, []⟩ : ChunkOutcome) ∈ dispatchChunks
      [(⟨0, 100⟩, Except.ok ⟨"", some [⟨"a", 1, 2⟩], none⟩),
       (⟨100, 100⟩, Except.error "timeout"),
       (⟨200, 50⟩, Except.ok ⟨"", some [⟨"b", 0, 1⟩], none⟩)] :=
  (dispatchChunks_error_isolation _).2.1 1 ⟨100, 100⟩ "timeout"
    (List.mem_cons_of_mem _ (List.mem_cons_self _ _))

/- ============ C5 and C6: split planner ============ -/

lemma bestLoop_some_acc (target w : ℚ) :
    ∀ (l : List Silence) (b0 : Silence),
      ∃ b, bestLoop target w (some b0) l = some b := by
  intro l
  induction l with
  | nil => intro b0; exact ⟨b0, rfl⟩
  | cons s rest ih =>
    intro b0
    by_cases hc : target - w ≤ s.start ∧ s.start ≤ target + w
    · by_cases hd : |s.start - target| < |b0.start - target|
      · rw [show bestLoop target w (some b0) (s :: rest) =
            bestLoop target w (some s) rest from by
          simp only [bestLoop]; rw [if_pos hc, if_pos hd]]
        exact ih s
      · rw [show bestLoop target w (some b0) (s :: rest) =
            bestLoop target w (some b0) rest from by
          simp only [bestLoop]; rw [if_pos hc, if_neg hd]]
        exact ih b0
    · rw [show bestLoop target w (some b0) (s :: rest) =
          bestLoop target w (some b0) rest from by
        simp only [bestLoop]; rw [if_neg hc]]
      exact ih b0

lemma bestLoop_none_of (target w : ℚ) :
    ∀ (l : List Silence),
      (∀ s ∈ l, ¬(target - w ≤ s.start ∧ s.start ≤ target + w)) →
      ∀ best, bestLoop target w best l = best := by
  intro l
  induction l with
  | nil => intro _ best; rfl
  | cons s rest ih =>
    intro h best
    have hc : ¬(target - w ≤ s.start ∧ s.start ≤ target + w) :=
      h s (List.mem_cons_self s rest)
    rw [show bestLoop target w best (s :: rest) =
        bestLoop target w best rest from by
      simp only [bestLoop]; rw [if_neg hc]]
    exact ih (fun s2 hs2 => h s2 (List.mem_cons_of_mem _ hs2)) best

lemma bestLoop_none_mem (target w : ℚ) :
    ∀ l, bestLoop target w none l = none →
      ∀ s ∈ l, ¬(target - w ≤ s.start ∧ s.start ≤ target + w) := by
  intro l
  induction l with
  | nil => intro _ s hs; cases hs
  | cons s rest ih =>
    intro h s2 hs2
    by_cases hc : target - w ≤ s.start ∧ s.start ≤ target + w
    · exfalso
      rw [show bestLoop target w none (s :: rest) =
          bestLoop target w (some s) rest from by
        simp only [bestLoop]; rw [if_pos hc]] at h
      obtain ⟨b, hb⟩ := bestLoop_some_acc target w rest s
      rw [hb] at h
      cases h
    · rw [show bestLoop target w none (s :: rest) =
          bestLoop target w none rest from by
        simp only [bestLoop]; rw [if_neg hc]] at h
      rcases List.mem_cons.mp hs2 with rfl | h2
      · exact hc
      · exact ih h s2 h2

lemma bestLoop_min (target w : ℚ) :
    ∀ (l : List Silence) (best : Option Silence) (b : Silence),
      bestLoop target w best l = some b →
      ((∀ s2 ∈ l, (target - w ≤ s2.start ∧ s2.start ≤ target + w) →
        |b.start - target| ≤ |s2.start - target|)
      ∧ (∀ b0, best = some b0 → |b.start - target| ≤ |b0.start - target|)
      ∧ ((b ∈ l ∧ (target - w ≤ b.start ∧ b.start ≤ target + w))
          ∨ best = some b)) := by
  intro l
  induction l with
  | nil =>
    intro best b h
    have h2 : best = some b := by simpa only [bestLoop] using h
    refine ⟨fun s2 hs2 => absurd hs2 (List.not_mem_nil s2), ?_, Or.inr h2⟩
    intro b0 hb0
    rw [h2] at hb0
    cases hb0
    exact le_refl _
  | cons s rest ih =>
    intro best b h
    by_cases hc : target - w ≤ s.start ∧ s.start ≤ target + w
    · cases best with
      | none =>
        rw [show bestLoop target w none (s :: rest) =
            bestLoop target w (some s) rest from by
          simp only [bestLoop]; rw [if_pos hc]] at h
        obtain ⟨hmin, hprev, hmem⟩ := ih (some s) b h
        refine ⟨?_, ?_, ?_⟩
        · intro s2 hs2 hc2
          rcases List.mem_cons.mp hs2 with rfl | h2
          · exact hprev s2 rfl
          · exact hmin s2 h2 hc2
        · intro b0 hb0
          cases hb0
        · rcases hmem with ⟨hb_mem, hbw⟩ | heq
          · exact Or.inl ⟨List.mem_cons_of_mem _ hb_mem, hbw⟩
          · cases heq
            exact Or.inl ⟨List.mem_cons_self _ _, hc⟩
      | some b0 =>
        by_cases hd : |s.start - target| < |b0.start - target|
        · rw [show bestLoop target w (some b0) (s :: rest) =
              bestLoop target w (some s) rest from by
            simp only [bestLoop]; rw [if_pos hc, if_pos hd]] at h
          obtain ⟨hmin, hprev, hmem⟩ := ih (some s) b h
          have hbs : |b.start - target| ≤ |s.start - target| := hprev s rfl
          refine ⟨?_, ?_, ?_⟩
          · intro s2 hs2 hc2
            rcases List.mem_cons.mp hs2 with rfl | h2
            · exact hbs
            · exact hmin s2 h2 hc2
          · intro b1 hb1
            cases hb1
            exact le_trans hbs (le_of_lt hd)
          · rcases hmem with ⟨m, hw2⟩ | heq
            · exact Or.inl ⟨List.mem_cons_of_mem _ m, hw2⟩
            · cases heq
              exact Or.inl ⟨List.mem_cons_self _ _, hc⟩
        · rw [show bestLoop target w (some b0) (s :: rest) =
              bestLoop target w (some b0) rest from by
            simp only [bestLoop]; rw [if_pos hc, if_neg hd]] at h
          obtain ⟨hmin, hprev, hmem⟩ := ih (some b0) b h
          have hbb0 : |b.start - target| ≤ |b0.start - target| :=
            hprev b0 rfl
          refine ⟨?_, ?_, ?_⟩
          · intro s2 hs2 hc2
            rcases List.mem_cons.mp hs2 with rfl | h2
            · exact le_trans hbb0 (not_lt.mp hd)
            · exact hmin s2 h2 hc2
          · intro b1 hb1
            cases hb1
            exact hbb0
          · rcases hmem with ⟨m, hw2⟩ | heq
            · exact Or.inl ⟨List.mem_cons_of_mem _ m, hw2⟩
            · exact Or.inr heq
    · rw [show bestLoop target w best (s :: rest) =
          bestLoop target w best rest from by
        simp only [bestLoop]; rw [if_neg hc]] at h
      obtain ⟨hmin, hprev, hmem⟩ := ih best b h
      refine ⟨?_, hprev, ?_⟩
      · intro s2 hs2 hc2
        rcases List.mem_cons.mp hs2 with rfl | h2
        · exact absurd hc2 hc
        · exact hmin s2 h2 hc2
      · rcases hmem with ⟨m, hw2⟩ | heq
        · exact Or.inl ⟨List.mem_cons_of_mem _ m, hw2⟩
        · exact Or.inr heq

lemma windowSizes_le : ∀ w ∈ windowSizes, w ≤ 180 := by
  intro w hw
  simp only [windowSizes, List.mem_cons, List.not_mem_nil, or_false] at hw
  rcases hw with rfl | rfl | rfl | rfl | rfl | rfl <;> norm_num

lemma windowSizes_sorted : windowSizes.Pairwise (· < ·) := by
  simp only [windowSizes, List.pairwise_cons, List.mem_cons,
    List.not_mem_nil, or_false, List.Pairwise.nil]
  norm_num

lemma searchWindows_bounds (silences : List Silence) (target : ℚ) :
    ∀ (ws : List ℚ), (∀ w ∈ ws, w ≤ 180) →
      ∀ b, searchWindows silences target ws = some b →
        target - 180 ≤ b.start ∧ b.start ≤ target + 180 := by
  intro ws
  induction ws with
  | nil => intro _ b hb; cases hb
  | cons w ws2 ih =>
    intro h b hb
    cases hbw : bestLoop target w none silences with
    | some b2 =>
      rw [show searchWindows silences target (w :: ws2) = some b2 from by
        simp only [searchWindows, hbw]] at hb
      cases hb
      have hw : w ≤ 180 := h w (List.mem_cons_self _ _)
      rcases (bestLoop_min target w silences none b hbw).2.2 with ⟨-, hcw⟩ | heq
      · exact ⟨by linarith [hcw.1], by linarith [hcw.2]⟩
      · cases heq
    | none =>
      rw [show searchWindows silences target (w :: ws2) =
          searchWindows silences target ws2 from by
        simp only [searchWindows, hbw]] at hb
      exact ih (fun w2 hw2 => h w2 (List.mem_cons_of_mem _ hw2)) b hb

lemma pickOffset_bounds (silences : List Silence) (target : ℚ) :
    target - 180 ≤ pickOffset silences target
    ∧ pickOffset silences target ≤ target + 180 := by
  unfold pickOffset
  cases hs : searchWindows silences target windowSizes with
  | none => exact ⟨by linarith, by linarith⟩
  | some b =>
    exact searchWindows_bounds silences target windowSizes windowSizes_le b hs

/-- C5 counterexample: with a silence interval starting at 270, total
duration 300 and target chunk length 100 (all valid inputs: the interval
is inside the audio and both durations are positive), the planner
returns [0, 270, 270], which is not strictly increasing: the checkpoint
at 100 only finds the silence at 270 in the widest window, and the
checkpoint at 200 finds the same silence. -/
theorem findSplitPoints_not_strictMono :
    findSplitPoints [⟨270, 272⟩] 300 100 = [0, 270, 270]
    ∧ ¬ List.Chain' (· < ·) (findSplitPoints [⟨270, 272⟩] 300 100) := by
  have hn : numTargets 300 100 = 2 := by
    rw [numTargets, if_pos (by norm_num : (0:ℚ) < 100),
      show (⌈(300:ℚ)/100⌉ : ℤ) = 3 from by
        rw [Int.ceil_eq_iff]; norm_num]
    decide
  have htargets : splitTargets 300 100 = [100, 200] := by
    rw [splitTargets, hn, show List.range 2 = [0, 1] from by decide]
    norm_num
  have hb1 : ∀ w : ℚ, ¬((100:ℚ) - w ≤ 270 ∧ (270:ℚ) ≤ 100 + w) →
      bestLoop 100 w none [⟨270, 272⟩] = none := by
    intro w hw
    exact bestLoop_none_of 100 w [⟨270, 272⟩]
      (by intro s hs; rcases List.mem_cons.mp hs with rfl | h2
          · exact hw
          · cases h2) none
  have hpick1 : pickOffset [⟨270, 272⟩] 100 = 270 := by
    rw [pickOffset, show searchWindows [⟨270, 272⟩] 100 windowSizes =
        some ⟨270, 272⟩ from by
      rw [windowSizes]
      rw [show searchWindows [⟨270, 272⟩] 100 (30 :: [60, 90, 120, 150, 180]) =
          searchWindows [⟨270, 272⟩] 100 [60, 90, 120, 150, 180] from by
        simp only [searchWindows, hb1 30 (by norm_num)]]
      rw [show searchWindows [⟨270, 272⟩] 100 (60 :: [90, 120, 150, 180]) =
          searchWindows [⟨270, 272⟩] 100 [90, 120, 150, 180] from by
        simp only [searchWindows, hb1 60 (by norm_num)]]
      rw [show searchWindows [⟨270, 272⟩] 100 (90 :: [120, 150, 180]) =
          searchWindows [⟨270, 272⟩] 100 [120, 150, 180] from by
        simp only [searchWindows, hb1 90 (by norm_num)]]
      rw [show searchWindows [⟨270, 272⟩] 100 (120 :: [150, 180]) =
          searchWindows [⟨270, 272⟩] 100 [150, 180] from by
        simp only [searchWindows, hb1 120 (by norm_num)]]
      rw [show searchWindows [⟨270, 272⟩] 100 (150 :: [180]) =
          searchWindows [⟨270, 272⟩] 100 [180] from by
        simp only [searchWindows, hb1 150 (by norm_num)]]
      have hfound : bestLoop 100 180 none [⟨270, 272⟩] =
          some ⟨270, 272⟩ := by
        rw [show bestLoop 100 180 none [⟨270, 272⟩] =
            bestLoop 100 180 (some ⟨270, 272⟩) [] from by
          simp only [bestLoop]
          rw [if_pos (by norm_num : (100:ℚ) - 180 ≤ (270:ℚ)
            ∧ (270:ℚ) ≤ 100 + 180)]]
        rfl
      simp only [searchWindows, hfound]]
  have hb2 : ∀ w : ℚ, ¬((200:ℚ) - w ≤ 270 ∧ (270:ℚ) ≤ 200 + w) →
      bestLoop 200 w none [⟨270, 272⟩] = none := by
    intro w hw
    exact bestLoop_none_of 200 w [⟨270, 272⟩]
      (by intro s hs; rcases List.mem_cons.mp hs with rfl | h2
          · exact hw
          · cases h2) none
  have hpick2 : pickOffset [⟨270, 272⟩] 200 = 270 := by
    rw [pickOffset, show searchWindows [⟨270, 272⟩] 200 windowSizes =
        some ⟨270, 272⟩ from by
      rw [windowSizes]
      rw [show searchWindows [⟨270, 272⟩] 200 (30 :: [60, 90, 120, 150, 180]) =
          searchWindows [⟨270, 272⟩] 200 [60, 90, 120, 150, 180] from by
        simp only [searchWindows, hb2 30 (by norm_num)]]
      rw [show searchWindows [⟨270, 272⟩] 200 (60 :: [90, 120, 150, 180]) =
          searchWindows [⟨270, 272⟩] 200 [90, 120, 150, 180] from by
        simp only [searchWindows, hb2 60 (by norm_num)]]
      have hfound : bestLoop 200 90 none [⟨270, 272⟩] =
          some ⟨270, 272⟩ := by
        rw [show bestLoop 200 90 none [⟨270, 272⟩] =
            bestLoop 200 90 (some ⟨270, 272⟩) [] from by
          simp only [bestLoop]
          rw [if_pos (by norm_num : (200:ℚ) - 90 ≤ (270:ℚ)
            ∧ (270:ℚ) ≤ 200 + 90)]]
        rfl
      simp only [searchWindows, hfound]]
  have hlist : findSplitPoints [⟨270, 272⟩] 300 100 = [0, 270, 270] := by
    rw [findSplitPoints, htargets]
    simp only [List.map_cons, List.map_nil, hpick1, hpick2]
  refine ⟨hlist, ?_⟩
  intro hchain
  rw [hlist] at hchain
  have h2 := (List.chain'_cons.mp (List.chain'_cons.mp hchain).2).1
  exact absurd h2 (lt_irrefl _)

/-- C5 (amended): the returned offset sequence always starts at 0, and
it is strictly increasing whenever targetChunkSeconds exceeds 360, twice
the maximum silence-search window of 180s (the default 600s qualifies);
for smaller targets a silence found far from one checkpoint can also be
the pick of the next checkpoint, so strict monotonicity can fail. -/
theorem findSplitPoints_sorted (silences : List Silence)
    (totalDuration chunkSec : ℚ) (hc : 360 < chunkSec) :
    (findSplitPoints silences totalDuration chunkSec).head? = some 0
    ∧ List.Chain' (· < ·) (findSplitPoints silences totalDuration chunkSec) := by
  constructor
  · rfl
  · unfold findSplitPoints splitTargets
    refine List.Pairwise.chain' ?_
    rw [List.pairwise_cons]
    have hc0 : (0:ℚ) ≤ chunkSec := by linarith
    constructor
    · intro b hb
      rw [List.mem_map] at hb
      obtain ⟨t, ht, rfl⟩ := hb
      rw [List.mem_map] at ht
      obtain ⟨i, -, rfl⟩ := ht
      obtain ⟨h1, -⟩ := pickOffset_bounds silences (((i:ℚ) + 1) * chunkSec)
      have hi0 : (0:ℚ) ≤ (i:ℚ) := Nat.cast_nonneg i
      have hmul : 1 * chunkSec ≤ ((i:ℚ) + 1) * chunkSec :=
        mul_le_mul_of_nonneg_right (by linarith) hc0
      linarith
    · rw [List.pairwise_map, List.pairwise_map]
      refine (List.pairwise_lt_range _).imp ?_
      intro i j hij
      obtain ⟨-, hi2⟩ := pickOffset_bounds silences (((i:ℚ) + 1) * chunkSec)
      obtain ⟨hj1, -⟩ := pickOffset_bounds silences (((j:ℚ) + 1) * chunkSec)
      have hij2 : (i:ℚ) + 1 ≤ (j:ℚ) := by exact_mod_cast hij
      have hmul : 1 * chunkSec ≤ ((j:ℚ) - (i:ℚ)) * chunkSec :=
        mul_le_mul_of_nonneg_right (by linarith) hc0
      nlinarith [hmul]

theorem findSplitPoints_sorted_witness :
    360 < (600:ℚ)
    ∧ (findSplitPoints [⟨615, 617⟩] 1000 600).head? = some 0
    ∧ List.Chain' (· < ·) (findSplitPoints [⟨615, 617⟩] 1000 600) :=
  ⟨by norm_num,
    (findSplitPoints_sorted [⟨615, 617⟩] 1000 600 (by norm_num)).1,
    (findSplitPoints_sorted [⟨615, 617⟩] 1000 600 (by norm_num)).2⟩

lemma windowCandidates_eq_nil_iff (silences : List Silence) (target w : ℚ) :
    windowCandidates silences target w = [] ↔
      ∀ s ∈ silences, ¬(target - w ≤ s.start ∧ s.start ≤ target + w) := by
  rw [windowCandidates, List.filter_eq_nil_iff]
  constructor
  · intro h s hs hcond
    exact h s hs (decide_eq_true hcond)
  · intro h s hs hdec
    exact h s hs (of_decide_eq_true hdec)

lemma searchWindows_none_of (silences : List Silence) (target : ℚ) :
    ∀ ws : List ℚ,
      (∀ w ∈ ws, windowCandidates silences target w = []) →
      searchWindows silences target ws = none := by
  intro ws
  induction ws with
  | nil => intro _; rfl
  | cons w ws2 ih =>
    intro h
    have hbw : bestLoop target w none silences = none :=
      bestLoop_none_of target w silences
        ((windowCandidates_eq_nil_iff silences target w).mp
          (h w (List.mem_cons_self _ _))) none
    rw [show searchWindows silences target (w :: ws2) =
        searchWindows silences target ws2 from by
      simp only [searchWindows, hbw]]
    exact ih (fun w2 hw2 => h w2 (List.mem_cons_of_mem _ hw2))

lemma searchWindows_first (silences : List Silence) (target : ℚ) :
    ∀ ws : List ℚ, ws.Pairwise (· < ·) →
      ∀ W ∈ ws, windowCandidates silences target W ≠ [] →
        (∀ w ∈ ws, w < W → windowCandidates silences target w = []) →
        ∃ s ∈ windowCandidates silences target W,
          searchWindows silences target ws = some s
          ∧ ∀ s2 ∈ windowCandidates silences target W,
              |s.start - target| ≤ |s2.start - target| := by
  intro ws
  induction ws with
  | nil => intro _ W hW; cases hW
  | cons w ws2 ih =>
    intro hsort W hW hne hprev
    rcases List.mem_cons.mp hW with rfl | hW2
    · cases hbw : bestLoop target W none silences with
      | none =>
        exfalso
        obtain ⟨s, hs⟩ := List.exists_mem_of_ne_nil _ hne
        rw [windowCandidates, List.mem_filter] at hs
        exact bestLoop_none_mem target W silences hbw s hs.1
          (of_decide_eq_true hs.2)
      | some b =>
        have hspec := bestLoop_min target W silences none b hbw
        have hbmem : b ∈ silences ∧
            (target - W ≤ b.start ∧ b.start ≤ target + W) := by
          rcases hspec.2.2 with h | h
          · exact h
          · cases h
        refine ⟨b, ?_, ?_, ?_⟩
        · rw [windowCandidates, List.mem_filter]
          exact ⟨hbmem.1, decide_eq_true hbmem.2⟩
        · simp only [searchWindows, hbw]
        · intro s2 hs2
          rw [windowCandidates, List.mem_filter] at hs2
          exact hspec.1 s2 hs2.1 (of_decide_eq_true hs2.2)
    · have hwW : w < W := (List.pairwise_cons.mp hsort).1 W hW2
      have hwempty := hprev w (List.mem_cons_self _ _) hwW
      have hbw : bestLoop target w none silences = none :=
        bestLoop_none_of target w silences
          ((windowCandidates_eq_nil_iff silences target w).mp hwempty) none
      rw [show searchWindows silences target (w :: ws2) =
          searchWindows silences target ws2 from by
        simp only [searchWindows, hbw]]
      exact ih (List.pairwise_cons.mp hsort).2 W hW2 hne
        (fun w2 hw2 hlt => hprev w2 (List.mem_cons_of_mem _ hw2) hlt)

/-- C6: for every checkpoint, if no silence start lies within 180s of
it, the chosen offset is the raw checkpoint; otherwise, taking the first
window size in the 30, 60, ..., 180 progression that contains at least
one silence start, the chosen offset is a candidate of that window with
minimum absolute distance to the checkpoint — the search never continues
to wider windows once a window has a candidate. -/
theorem pickOffset_window_selection (silences : List Silence) (target : ℚ) :
    ((∀ s ∈ silences, ¬(target - 180 ≤ s.start ∧ s.start ≤ target + 180)) →
      pickOffset silences target = target)
    ∧ (∀ W ∈ windowSizes, windowCandidates silences target W ≠ [] →
        (∀ w ∈ windowSizes, w < W → windowCandidates silences target w = []) →
        ∃ s ∈ windowCandidates silences target W,
          pickOffset silences target = s.start
          ∧ ∀ s2 ∈ windowCandidates silences target W,
              |s.start - target| ≤ |s2.start - target|) := by
  constructor
  · intro h
    have hnone : searchWindows silences target windowSizes = none := by
      refine searchWindows_none_of silences target windowSizes ?_
      intro w hw
      rw [windowCandidates_eq_nil_iff]
      intro s hs hcond
      have hw180 := windowSizes_le w hw
      exact h s hs ⟨by linarith [hcond.1], by linarith [hcond.2]⟩
    rw [pickOffset, hnone]
  · intro W hW hne hprev
    obtain ⟨s, hs1, hs2, hs3⟩ := searchWindows_first silences target
      windowSizes windowSizes_sorted W hW hne hprev
    exact ⟨s, hs1, by rw [pickOffset, hs2], hs3⟩

theorem pickOffset_window_selection_witness :
    ∃ s ∈ windowCandidates [⟨615, 617⟩] 600 30,
      pickOffset [⟨615, 617⟩] 600 = s.start
      ∧ ∀ s2 ∈ windowCandidates [⟨615, 617⟩] 600 30,
          |s.start - 600| ≤ |s2.start - 600| :=
  (pickOffset_window_selection [⟨615, 617⟩] 600).2 30
    (by simp [windowSizes])
    (by
      rw [show windowCandidates [⟨615, 617⟩] 600 30 = [⟨615, 617⟩] from by
        simp only [windowCandidates, List.filter_cons, List.filter_nil]
        rw [if_pos (decide_eq_true
          (by norm_num : (600:ℚ) - 30 ≤ (615:ℚ) ∧ (615:ℚ) ≤ 600 + 30))]]
      simp)
    (by
      intro w hw hlt
      simp only [windowSizes, List.mem_cons, List.not_mem_nil, or_false] at hw
      rcases hw with rfl | rfl | rfl | rfl | rfl | rfl
      all_goals norm_num at hlt)
